import Mathlib

/-!
Shallow embedding of the `ranklist` core parsing module
(slugify, detectFormat, parseMarkdownTable, splitSpacedLine, parseDelimited,
guessHeader, normalizeKey, coerceRank, coerceNumber, parseInput)
together with theorems checking the specification's claims about it.

Strings are modelled as lists of characters (`Str`).  JavaScript regular
expression operations are translated into explicit recursive scans with the
same leftmost-match, greedy semantics.  JavaScript numbers are modelled as
exact rationals; the numeric values reached by this program are the decimal
literals extracted from the input, for which rational arithmetic agrees with
the double-precision arithmetic of the source.  `toLowerCase` is modelled on
the ASCII range, which is exact for every character the program treats
specially.
-/

/-- Strings as lists of characters. -/
abbrev Str := List Char

/-- Whitespace in the sense of the JavaScript runtime: the character class
matched by regexp `\s` and trimmed by `String.prototype.trim`. -/
def jsWS (c : Char) : Bool :=
  c.toNat = 32 || c.toNat = 9 || c.toNat = 10 || c.toNat = 13 ||
  c.toNat = 11 || c.toNat = 12 || c.toNat = 160 || c.toNat = 5760 ||
  (8192 ≤ c.toNat && c.toNat ≤ 8202) || c.toNat = 8232 || c.toNat = 8233 ||
  c.toNat = 8239 || c.toNat = 8287 || c.toNat = 12288 || c.toNat = 65279

/-- Drop trailing characters satisfying `p` (used for trims and for the
`replace s+$ with nothing` step of the source). -/
def dropTrailing (p : Char → Bool) (l : Str) : Str :=
  (l.reverse.dropWhile p).reverse

/-- JavaScript `String.prototype.trim`. -/
def jsTrim (l : Str) : Str :=
  dropTrailing jsWS (l.dropWhile jsWS)

/-- ASCII lowercasing of one character, the fragment of `toLowerCase`
relevant here (it is the definition of core `Char.toLower`). -/
def asciiLower (c : Char) : Char :=
  if 65 ≤ c.toNat && c.toNat ≤ 90 then Char.ofNat (c.toNat + 32) else c

/-- ASCII lowercasing of a string. -/
def lowerStr (l : Str) : Str :=
  l.map asciiLower

/-- Split on a single delimiter character, keeping empty pieces, as
JavaScript `split` with a one-character string separator does. -/
def splitOnChar (d : Char) : Str → List Str
  | [] => [[]]
  | c :: rest =>
    if c = d then [] :: splitOnChar d rest
    else
      match splitOnChar d rest with
      | [] => [[c]]
      | t :: ts => (c :: t) :: ts

/-- Strip one trailing carriage return, if present. -/
def stripCR (l : Str) : Str :=
  if l.getLast? = some '\r' then l.dropLast else l

/-- JavaScript `split(/\r?\n/)`: split on newlines, where a carriage return
immediately preceding the newline is consumed by the separator. -/
def splitLines (s : Str) : List Str :=
  (splitOnChar '\n' s).map stripCR

/-- Leftmost containment of `pat` as a contiguous run, JavaScript
`String.prototype.includes`. -/
def hasSub (pat : Str) : Str → Bool
  | [] => pat.isEmpty
  | c :: rest => pat.isPrefixOf (c :: rest) || hasSub pat rest

/-- Replace every maximal run of characters satisfying `p` by the single
character `rep`: JavaScript `replace(/P+/g, rep)` for a character class `P`.
The flag records whether the previous character was part of a run. -/
def collapseAux (p : Char → Bool) (rep : Char) (inRun : Bool) : Str → Str
  | [] => []
  | c :: rest =>
    if p c then
      if inRun then collapseAux p rep true rest
      else rep :: collapseAux p rep true rest
    else c :: collapseAux p rep false rest

/-- Replace every maximal run of characters satisfying `p` by `rep`. -/
def collapseRuns (p : Char → Bool) (rep : Char) (l : Str) : Str :=
  collapseAux p rep false l

/-- Remove every character satisfying `p`: JavaScript `replace(/P/g, "")`. -/
def removeAll (p : Char → Bool) (l : Str) : Str :=
  l.filter (fun c => !p c)

/-- Split on maximal whitespace runs of length at least two, the separator
regexp of `splitSpacedLine`.  `mode = some tok` means a piece `tok` (reversed)
is being accumulated; `mode = none` means a separator run is being consumed. -/
def spacedAux (mode : Option Str) : Str → List Str
  | [] =>
    match mode with
    | some tok => [tok.reverse]
    | none => [[]]
  | c :: rest =>
    match mode with
    | none => if jsWS c then spacedAux none rest else spacedAux (some [c]) rest
    | some tok =>
      if jsWS c then
        if (rest.head?.elim false jsWS) then tok.reverse :: spacedAux none rest
        else spacedAux (some (c :: tok)) rest
      else spacedAux (some (c :: tok)) rest

/-- JavaScript `split(/\s\x7b2,\x7d/g)`. -/
def splitRuns2 (l : Str) : List Str :=
  spacedAux (some []) l

/-- Numeric value of a run of decimal digits. -/
def natOfDigits (l : Str) : Nat :=
  l.foldl (fun a c => a * 10 + (c.toNat - 48)) 0

/-- Decimal digit string of a natural number, as JavaScript prints
nonnegative integral numbers. -/
def natToStr (n : Nat) : Str :=
  Nat.toDigits 10 n

/-- String length as JavaScript counts it: UTF-16 code units. -/
def jsLen (l : Str) : Nat :=
  (l.map (fun c => if c.toNat ≥ 0x10000 then 2 else 1)).sum

example : splitOnChar ',' ("a,,b".toList) = [['a'], [], ['b']] := by decide
example : splitLines ("a\r\nb\nc".toList) = [['a'], ['b'], ['c']] := by decide
example : hasSub ("---".toList) ("x --- y".toList) = true := by decide
example : hasSub ("---".toList) ("x -- y".toList) = false := by decide
example : collapseRuns (fun c => !c.isAlpha) '-' ("ab!!cd".toList) =
    ("ab-cd".toList) := by decide
example : splitRuns2 ("a  b c   d".toList) =
    [("a".toList), ("b c".toList), ['d']] := by decide
example : natOfDigits ("120".toList) = 120 := by decide
example : natToStr 0 = ['0'] ∧ natToStr 120 = ("120".toList) := by decide

/-- Quote characters stripped by `slugify`: the source regexp matches only
the straight single and double quote. -/
def isQuoteChar (c : Char) : Bool :=
  c.toNat = 39 || c.toNat = 34

/-- Characters kept verbatim by `slugify` after lowercasing. -/
def isLowerAlnum (c : Char) : Bool :=
  (97 ≤ c.toNat && c.toNat ≤ 122) || (48 ≤ c.toNat && c.toNat ≤ 57)

/-- The hyphen test of the final trim of `slugify`. -/
def isDash (c : Char) : Bool :=
  c = '-'

/-- Non-alphanumeric after lowercasing: the character class collapsed to a
hyphen by `slugify`. -/
def nonAlnum (c : Char) : Bool :=
  !isLowerAlnum c

/-- The final step of `slugify`: trim leading and trailing hyphens
(`replace` of the anchored hyphen runs). -/
def slugTail (y : Str) : Str :=
  dropTrailing isDash (y.dropWhile isDash)

/-- The source `slugify`: lowercase, trim, delete straight quotes, collapse
every run of other non-alphanumeric characters to one hyphen, and trim
leading and trailing hyphens. -/
def slugify (s : Str) : Str :=
  slugTail (collapseRuns nonAlnum '-' (removeAll isQuoteChar (jsTrim (lowerStr s))))

/-- A line whose trimmed form starts with a pipe. -/
def trimStartsPipe (l : Str) : Bool :=
  match jsTrim l with
  | c :: _ => c = '|'
  | [] => false

/-- A line that is not blank: its trimmed form is nonempty. -/
def nonBlank (l : Str) : Bool :=
  !(jsTrim l).isEmpty

/-- The four shape tags returned by `detectFormat`. -/
inductive Shape where
  | md : Shape
  | tsv : Shape
  | csv : Shape
  | spaced : Shape
deriving DecidableEq

/-- The line list `detectFormat` computes from the raw text (no
non-breaking-space substitution, no trailing trim: those happen only in
`parseInput`). -/
def detectLines (text : Str) : List Str :=
  (splitLines text).filter nonBlank

/-- The source `detectFormat` priority chain. -/
def detectFormat (text : Str) : Shape :=
  let lines := detectLines text
  if lines.any (fun l => l.contains '|' && trimStartsPipe l) then .md
  else if lines.any (fun l => l.contains '\t') then .tsv
  else if lines.any (fun l => l.contains ',' && !l.contains '\t') then .csv
  else .spaced

/-- Split a markdown table line on pipes, trim the cells, drop empty cells
(the `filter(Boolean)` of the source). -/
def splitPipe (l : Str) : List Str :=
  ((splitOnChar '|' l).map jsTrim).filter (fun s => !s.isEmpty)

/-- The source `parseMarkdownTable`: keep only pipe-prefixed lines; fewer
than two of them yields nothing; the first is the header, the second is
skipped unconditionally, the rest are rows. -/
def parseMarkdownTable (lines : List Str) : Option (List Str) × List (List Str) :=
  let tableLines := lines.filter trimStartsPipe
  if tableLines.length < 2 then (none, [])
  else (some (splitPipe (tableLines.headD [])), (tableLines.drop 2).map splitPipe)

/-- The source `splitSpacedLine`: trim, split on 2-or-more-whitespace runs,
trim the pieces. -/
def splitSpacedLine (l : Str) : List Str :=
  (splitRuns2 (jsTrim l)).map jsTrim

/-- The source `parseDelimited`: split each line on the delimiter and trim
each cell. -/
def parseDelimited (d : Char) (lines : List Str) : List (List Str) :=
  lines.map (fun l => (splitOnChar d l).map jsTrim)

/-- Keyword list of the source `guessHeader`. -/
def headerWords : List Str :=
  [("rank".toList), ("player".toList), ("name".toList), ("city".toList),
   ("school".toList), ("type".toList), ("rating".toList)]

/-- Number of header keywords contained in the lowercased line. -/
def headerHits (l : Str) : Nat :=
  (headerWords.filter (fun w => hasSub w (lowerStr l))).length

/-- A line qualifying as a header guess: at least three keyword hits. -/
def isHeaderish (l : Str) : Bool :=
  decide (3 ≤ headerHits l)

/-- Index of the line `guessHeader` returns: the first qualifying line among
the first 25.  (The source returns the line itself and re-finds its index
with `indexOf`; since any earlier identical line would also qualify, the
`indexOf` result is exactly this first qualifying index.) -/
def guessHeaderIdx (lines : List Str) : Option Nat :=
  (lines.take 25).findIdx? isHeaderish

/-- Characters surviving `normalizeKey`. -/
def keyChar (c : Char) : Bool :=
  isLowerAlnum c || c.toNat = 95

/-- The source `normalizeKey`: lowercase, trim, whitespace runs to one
underscore, delete everything outside lowercase alphanumerics and
underscore. -/
def normalizeKey (k : Str) : Str :=
  removeAll (fun c => !keyChar c) (collapseRuns jsWS '_' (jsTrim (lowerStr k)))

/-- Leftmost match of the regexp `#?(d+)` (`d` the digit class), returning
the captured digit run: at each position the optional hash is tried first,
backtracking to the bare-digits alternative, exactly as the JavaScript
engine scans. -/
def rankScan : Str → Option Nat
  | [] => none
  | c :: rest =>
    if c.isDigit then some (natOfDigits ((c :: rest).takeWhile Char.isDigit))
    else if c = '#' && (rest.head?.elim false Char.isDigit) then
      some (natOfDigits (rest.takeWhile Char.isDigit))
    else rankScan rest

/-- Value of the match of `d+(.d+)?` starting at a digit: the integer part,
extended by a fractional part when a dot with at least one digit follows
(the greedy optional group).  Built with `mkRat` over natural arithmetic so
that concrete values reduce. -/
def decValue (l : Str) : ℚ :=
  let ip := natOfDigits (l.takeWhile Char.isDigit)
  match l.dropWhile Char.isDigit with
  | '.' :: r2 =>
    let fd := r2.takeWhile Char.isDigit
    if fd.isEmpty then (ip : ℚ)
    else mkRat (ip * 10 ^ fd.length + natOfDigits fd) (10 ^ fd.length)
  | _ => (ip : ℚ)

/-- Leftmost match of the regexp `-?d+(.d+)?` and its numeric value. -/
def numScan : Str → Option ℚ
  | [] => none
  | c :: rest =>
    if c.isDigit then some (decValue (c :: rest))
    else if c = '-' && (rest.head?.elim false Char.isDigit) then some (-(decValue rest))
    else numScan rest

/-- Record values: the JavaScript values stored by this program are strings,
finite numbers, and null. -/
inductive Value where
  | vstr : Str → Value
  | vnum : ℚ → Value
  | vnull : Value
deriving DecidableEq

/-- Records as insertion-ordered key-value lists with unique keys, the
observable behavior of a JavaScript object under string keys. -/
abbrev Record := List (Str × Value)

/-- Key membership, JavaScript `k in obj`. -/
def hasKey (o : Record) (k : Str) : Bool :=
  o.any (fun p => p.1 == k)

/-- Property read, JavaScript `obj[k]` (`none` for an absent key). -/
def objGet (o : Record) (k : Str) : Option Value :=
  (o.find? (fun p => p.1 == k)).map (fun p => p.2)

/-- Property write, JavaScript `obj[k] = v`: an existing key keeps its
position and gets the new value, a new key is appended. -/
def objInsert (o : Record) (k : Str) (v : Value) : Record :=
  if hasKey o k then o.map (fun p => if p.1 == k then (k, v) else p)
  else o ++ [(k, v)]

/-- Decimal rendering of the numbers this program stringifies.  Only
nonnegative integers reach it (rank coercion produces digit runs); the
other cases are total fallbacks. -/
def numToStr (q : ℚ) : Str :=
  let sign : Str := if q.num < 0 then ['-'] else []
  if q.den = 1 then sign ++ natToStr q.num.natAbs
  else sign ++ natToStr q.num.natAbs ++ ('/' :: natToStr q.den)

/-- JavaScript truthiness of the stored values. -/
def jsTruthy : Value → Bool
  | .vstr s => !s.isEmpty
  | .vnum q => decide (q ≠ 0)
  | .vnull => false

/-- JavaScript string conversion of the stored values. -/
def valToStr : Value → Str
  | .vstr s => s
  | .vnum q => numToStr q
  | .vnull => "null".toList

/-- The options record destructured at the top of `parseInput`. -/
structure Opts where
  columns : Option (List Str)
  addId : Bool
  meta : List (Str × Str)

/-- The defaults of the destructuring. -/
def defaultOpts : Opts :=
  Opts.mk none true []

/-- Key constant. -/
def kRank : Str := "rank".toList

/-- Key constant. -/
def kRating : Str := "rating".toList

/-- Key constant. -/
def kId : Str := "id".toList

/-- Key constant. -/
def kPlayer : Str := "player".toList

/-- Key constant. -/
def kName : Str := "name".toList

/-- Key constant. -/
def kFullName : Str := "full_name".toList

/-- Key constant. -/
def kCol1 : Str := "col1".toList

/-- Key constant. -/
def kCol2 : Str := "col2".toList

/-- The junk test of the row loop: the cells joined with one space and
lowercased contain three dashes, or the row is a single cell shorter than
two UTF-16 units. -/
def isJunk (r : List Str) : Bool :=
  hasSub ("---".toList) (lowerStr (List.intercalate [' '] r)) ||
    (match r with
     | [x] => jsLen x < 2
     | _ => false)

/-- Positional fallback key `col(n)`. -/
def colKey (n : Nat) : Str :=
  ("col".toList) ++ natToStr n

/-- The key-assignment loop of the source: with a header, position `i` gets
key `normalizeKey (header i)` and value `row i` or empty; without one, keys
are `col1`, `col2`, ... over the row's own length. -/
def buildObj (finalHeader : Option (List Str)) (r : List Str) : Record :=
  match finalHeader with
  | some h =>
    h.enum.foldl (fun acc p => objInsert acc (normalizeKey p.2) (.vstr (r.getD p.1 []))) []
  | none =>
    r.enum.foldl (fun acc p => objInsert acc (colKey (p.1 + 1)) (.vstr p.2)) []

/-- The source `coerceRank` applied to a stored value: null stays null,
anything else is stringified, trimmed and scanned for the first digit run. -/
def coerceRank (v : Value) : Value :=
  match v with
  | .vnull => .vnull
  | v =>
    match rankScan (jsTrim (valToStr v)) with
    | some n => .vnum n
    | none => .vnull

/-- The source `coerceNumber` applied to a stored value. -/
def coerceNumber (v : Value) : Value :=
  match v with
  | .vnull => .vnull
  | v =>
    match numScan (jsTrim (valToStr v)) with
    | some q => .vnum q
    | none => .vnull

/-- The coercion block of the row loop: a present `rank` key is replaced by
its rank coercion, then a present `rating` key by its number coercion. -/
def coerceStep (obj : Record) : Record :=
  let o1 :=
    match objGet obj kRank with
    | some v => objInsert obj kRank (coerceRank v)
    | none => obj
  match objGet o1 kRating with
  | some v => objInsert o1 kRating (coerceNumber v)
  | none => o1

/-- First truthy value among the given keys, the `a || b || ...` chain of
the identifier base. -/
def firstTruthy (obj : Record) : List Str → Option Value
  | [] => none
  | k :: ks =>
    match objGet obj k with
    | some v => if jsTruthy v then some v else firstTruthy obj ks
    | none => firstTruthy obj ks

/-- The identifier base: first truthy of `player`, `name`, `full_name`,
`col2`, `col1`, else the literal `row`. -/
def baseOf (obj : Record) : Str :=
  match firstTruthy obj [kPlayer, kName, kFullName, kCol2, kCol1] with
  | some v => valToStr v
  | none => "row".toList

/-- The `rank ?? results.length + 1` part of the identifier template:
a null or absent rank falls back to the 1-based sequence number. -/
def rankOrSeq (obj : Record) (count : Nat) : Str :=
  match objGet obj kRank with
  | some (.vnum q) => numToStr q
  | some (.vstr s) => s
  | _ => natToStr (count + 1)

/-- The identifier synthesis step: slugify base-dash-rank-or-sequence and
store it under `id`. -/
def addIdStep (count : Nat) (obj : Record) : Record :=
  objInsert obj kId (.vstr (slugify (baseOf obj ++ ('-' :: rankOrSeq obj count))))

/-- The metadata merge: every metadata entry is written into the record, in
order, after everything else. -/
def attachMeta (meta : List (Str × Str)) (obj : Record) : Record :=
  meta.foldl (fun acc kv => objInsert acc kv.1 (.vstr kv.2)) obj

/-- One iteration body of the row loop after the junk test: build, coerce,
optionally add the identifier (`count` is the number of records already
produced), attach metadata. -/
def mkRecord (finalHeader : Option (List Str)) (opts : Opts) (count : Nat)
    (r : List Str) : Record :=
  let obj := coerceStep (buildObj finalHeader r)
  let obj := if opts.addId then addIdStep count obj else obj
  attachMeta opts.meta obj

/-- The row loop: junk rows are skipped, others append one record; the
sequence number used for identifiers is the accumulator length at the time
of the append. -/
def buildResults (finalHeader : Option (List Str)) (opts : Opts) :
    List (List Str) → List Record → List Record
  | [], acc => acc
  | r :: rest, acc =>
    if isJunk r then buildResults finalHeader opts rest acc
    else buildResults finalHeader opts rest (acc ++ [mkRecord finalHeader opts acc.length r])

/-- JavaScript `Number` on a trimmed string, for the decimal forms that can
reach the sort comparator; `none` models NaN.  (The `Infinity` and radix
literal forms are not produced by this program and are mapped to `none` as
well.) -/
def parseExp (l : Str) : Option Int :=
  match l with
  | [] => some 0
  | e :: r =>
    if e = 'e' || e = 'E' then
      match r with
      | '+' :: d => if !d.isEmpty && d.all Char.isDigit then some ((natOfDigits d : Int)) else none
      | '-' :: d => if !d.isEmpty && d.all Char.isDigit then some (-(natOfDigits d : Int)) else none
      | d => if !d.isEmpty && d.all Char.isDigit then some ((natOfDigits d : Int)) else none
    else none

/-- Value of an unsigned decimal literal with fraction digits and a decimal
exponent, as an exact rational. -/
def sciVal (ip fp : Nat) (fl : Nat) (e : Int) : ℚ :=
  if 0 ≤ e then mkRat ((ip * 10 ^ fl + fp) * 10 ^ e.toNat) (10 ^ fl)
  else mkRat (ip * 10 ^ fl + fp) (10 ^ fl * 10 ^ (-e).toNat)

/-- Unsigned decimal literal with optional fraction and exponent, consuming
the whole string. -/
def strToNumAux (l : Str) : Option ℚ :=
  let ip := l.takeWhile Char.isDigit
  let r1 := l.dropWhile Char.isDigit
  match r1 with
  | '.' :: r2 =>
    let fp := r2.takeWhile Char.isDigit
    let r3 := r2.dropWhile Char.isDigit
    if ip.isEmpty && fp.isEmpty then none
    else (parseExp r3).map (fun e => sciVal (natOfDigits ip) (natOfDigits fp) fp.length e)
  | _ =>
    if ip.isEmpty then none
    else (parseExp r1).map (fun e => sciVal (natOfDigits ip) 0 0 e)

/-- JavaScript numeric conversion of a string: trimmed, empty means zero,
optional sign, decimal literal. -/
def strToNum (s : Str) : Option ℚ :=
  match jsTrim s with
  | [] => some 0
  | '+' :: r => strToNumAux r
  | '-' :: r => (strToNumAux r).map Neg.neg
  | r => strToNumAux r

/-- The sort key `rec.rank ?? 999999` as a number: null and absent ranks
become the sentinel, a string rank goes through numeric conversion (`none`
models NaN). -/
def rankKey (r : Record) : Option ℚ :=
  match objGet r kRank with
  | some (.vnum q) => some q
  | some (.vstr s) => strToNum s
  | _ => some 999999

/-- The sort comparator as a Boolean order: keyA minus keyB nonpositive.
A NaN comparison result is treated as zero (order kept), following the
ECMAScript SortCompare rule. -/
def sortLe (a b : Record) : Bool :=
  match rankKey a, rankKey b with
  | some x, some y => decide (x ≤ y)
  | _, _ => true

/-- The guard of the sort step: there is a first record and its `rank` is
neither null nor absent (loose inequality with null). -/
def firstRankPresent (rs : List Record) : Bool :=
  match rs with
  | [] => false
  | r :: _ =>
    match objGet r kRank with
    | some .vnull => false
    | some _ => true
    | none => false

/-- The final sort: stable ascending sort by the rank key when the first
record carries a rank, identity otherwise.  `Array.prototype.sort` is
stable, as is `List.mergeSort`. -/
def sortStep (rs : List Record) : List Record :=
  if firstRankPresent rs then rs.mergeSort sortLe else rs

/-- Non-breaking spaces become plain spaces before line splitting in
`parseInput`. -/
def nbspFix (c : Char) : Char :=
  if c = '\u00a0' then ' ' else c

/-- The processed line list of `parseInput`: non-breaking-space fix, line
split, trailing-whitespace strip, blank-line removal. -/
def linesOf (rawText : Str) : List Str :=
  ((splitLines (rawText.map nbspFix)).map (dropTrailing jsWS)).filter nonBlank

/-- Header and rows for the tab and comma formats: a guessed header line is
split on the delimiter and the lines after it become rows, otherwise every
line becomes a row. -/
def delimExtract (d : Char) (linesAll : List Str) : Option (List Str) × List (List Str) :=
  match guessHeaderIdx linesAll with
  | some idx =>
    (some ((splitOnChar d (linesAll.getD idx [])).map jsTrim),
     parseDelimited d (linesAll.drop (idx + 1)))
  | none => (none, parseDelimited d linesAll)

/-- The per-shape extraction branch of `parseInput`. -/
def extractTable (format : Shape) (linesAll : List Str) :
    Option (List Str) × List (List Str) :=
  match format with
  | .md => parseMarkdownTable linesAll
  | .tsv => delimExtract '\t' linesAll
  | .csv => delimExtract ',' linesAll
  | .spaced =>
    match guessHeaderIdx linesAll with
    | some idx =>
      (some (splitSpacedLine (linesAll.getD idx [])),
       (linesAll.drop (idx + 1)).map splitSpacedLine)
    | none => (none, linesAll.map splitSpacedLine)

/-- Effective header: nonempty caller columns win, else a nonempty detected
header, else none (positional naming). -/
def resolveHeader (columns : Option (List Str)) (header : Option (List Str)) :
    Option (List Str) :=
  let fromDetected :=
    match header with
    | some h => if !h.isEmpty then some h else none
    | none => none
  match columns with
  | some cs => if !cs.isEmpty then some cs else fromDetected
  | none => fromDetected

/-- The source `parseInput`: detect the shape on the raw text, extract
header and rows from the processed lines, resolve the header, run the row
loop, sort. -/
def parseInput (rawText : Str) (opts : Opts) : List Record :=
  let linesAll := linesOf rawText
  let format := detectFormat rawText
  let hr := extractTable format linesAll
  let finalHeader := resolveHeader opts.columns hr.1
  sortStep (buildResults finalHeader opts hr.2 [])

/-- Shorthand for the record list `parseInput` produces before the final
sort (the `results` array at the end of the row loop). -/
def preSort (rawText : Str) (opts : Opts) : List Record :=
  buildResults
    (resolveHeader opts.columns (extractTable (detectFormat rawText) (linesOf rawText)).1)
    opts (extractTable (detectFormat rawText) (linesOf rawText)).2 []

/-- Stated from the claim's words: the first run of digits in the string,
as a number, or nothing when the string holds no digit. -/
def firstDigitsSpec (s : Str) : Option Nat :=
  let tail := s.dropWhile (fun c => !c.isDigit)
  if tail.isEmpty then none else some (natOfDigits (tail.takeWhile Char.isDigit))

/-- Stated from the claim as amended: lowercase, strip the straight quote
characters, collapse every run of non-alphanumeric characters to a single
hyphen, trim leading and trailing hyphens (no separate whitespace trim). -/
def slugifySpec (s : Str) : Str :=
  slugTail (collapseRuns nonAlnum '-' (removeAll isQuoteChar (lowerStr s)))

/-- Stated from the claim as amended: the same priority chain, with the
comma rule's tab check read over the non-blank lines (where it is already
settled by the failed tab-separated branch) rather than over the raw
input. -/
def detectFormatSpec (text : Str) : Shape :=
  let lines := detectLines text
  if lines.any (fun l => l.contains '|' && trimStartsPipe l) then .md
  else if lines.any (fun l => l.contains '\t') then .tsv
  else if lines.any (fun l => l.contains ',') then .csv
  else .spaced

/-- Stated from the claim's words: the first non-empty value among the
`player`, `name`, `full_name`, `col2`, `col1` fields, else the literal
`row`. -/
def specBase (obj : Record) : Str :=
  match ([kPlayer, kName, kFullName, kCol2, kCol1].findSome? fun k =>
      match objGet obj k with
      | some (.vstr s) => if s.isEmpty then none else some s
      | _ => none) with
  | some s => s
  | none => "row".toList

/-- Stated from the claim's words: the decimal rank when the `rank` field
is a number, else the 1-based sequence number over `count` records already
produced. -/
def specRankSeq (obj : Record) (count : Nat) : Str :=
  match objGet obj kRank with
  | some (.vnum q) => numToStr q
  | _ => natToStr (count + 1)

/-- The five identifier-base keys. -/
def baseKeys : List Str :=
  [kPlayer, kName, kFullName, kCol2, kCol1]

/-- The numeric sort key once every stored rank is a number, null, or
absent: the rank when a number, the sentinel 999999 otherwise. -/
def keyOf (r : Record) : ℚ :=
  match objGet r kRank with
  | some (.vnum q) => q
  | _ => 999999

/-- A record whose `rank` field is null or absent (rank-less in the
claim's words). -/
def isNullRank (r : Record) : Bool :=
  match objGet r kRank with
  | some (.vnum _) => false
  | _ => true

/-- A record whose `rank` field is a number. -/
def isNumRank (r : Record) : Bool :=
  match objGet r kRank with
  | some (.vnum _) => true
  | _ => false

/-- A stored `rank` value of the shapes the row loop can produce: a number,
null, or absent (never a string, which only caller metadata could inject). -/
def rankShapeOK (r : Record) : Bool :=
  match objGet r kRank with
  | some (.vstr _) => false
  | _ => true

/-- Concrete input refuting claim 1 as stated: a tab-separated table whose
guessed header is `rank name player`, first data row rank 1000000, second
data row rank-less. -/
def c1text : Str :=
  ("rank\tname\tplayer\n1000000\taa\tbb\nxx\tcc\tdd").toList

/-- Concrete input refuting claim 2 as stated: a markdown table with one
data row whose only cell is the single character 1. -/
def c2text : Str :=
  ("| Rank | Player |\n| --- | --- |\n| 1 |").toList

/-- Markdown witness input with two ordinary data rows. -/
def c2wtext : Str :=
  ("| Name | City |\n| --- | --- |\n| Ann Lee | Rye |\n| Bo Kim | Derby |").toList

/-- Concrete input refuting claim 5 as stated: a comma line, then a line
holding only a tab (blank after trimming), then a plain line. -/
def c5text : Str :=
  ("a,b\n\t\nc").toList

/-- Witness record sequence for the sorting claim: ranks 3 and 1. -/
def c1rs : List Record :=
  [[(kRank, Value.vnum 3)], [(kRank, Value.vnum 1)]]

/-- A present value of string shape (or an absent one): the shapes the
identifier-base fields can have inside the row loop. -/
def strShapeOpt : Option Value → Bool
  | none => true
  | some (.vstr _) => true
  | some _ => false

/-- Witness input for the metadata-overwrite claim. -/
def c10text : Str :=
  ("ab,cd").toList

/-- Witness options: identifier synthesis on, metadata carrying an `id`
entry. -/
def c10opts : Opts :=
  Opts.mk none true [(kId, ("xy").toList)]

theorem hasKey_cons (p : Str × Value) (o : Record) (k : Str) :
    hasKey (p :: o) k = (p.1 == k || hasKey o k) := by
  simp [hasKey]

theorem objGet_cons (p : Str × Value) (o : Record) (k : Str) :
    objGet (p :: o) k = if p.1 == k then some p.2 else objGet o k := by
  by_cases h : (p.1 == k) = true <;> simp [objGet, List.find?_cons, h]

theorem objGet_of_not_hasKey (o : Record) (k : Str) (h : hasKey o k = false) :
    objGet o k = none := by
  induction o with
  | nil => rfl
  | cons hd tl ih =>
    rw [hasKey_cons] at h
    rw [objGet_cons]
    cases hb : hd.1 == k with
    | true => rw [hb] at h; simp at h
    | false =>
      rw [hb] at h
      simp only [Bool.false_eq_true, if_false]
      exact ih (by simpa using h)

theorem objGet_map_set (o : Record) (k : Str) (v : Value) (h : hasKey o k = true) :
    objGet (o.map (fun p => if p.1 == k then (k, v) else p)) k = some v := by
  induction o with
  | nil => simp only [hasKey, List.any_nil] at h; exact Bool.noConfusion h
  | cons hd tl ih =>
    rw [hasKey_cons] at h
    cases hb : hd.1 == k with
    | true =>
      have e1 : (if (hd.1 == k) = true then (k, v) else hd) = (k, v) := if_pos hb
      simp only [List.map_cons, e1]
      rw [objGet_cons, if_pos (by simp)]
    | false =>
      rw [hb] at h
      simp only [List.map_cons, hb]
      rw [if_neg (by simp), objGet_cons, if_neg (by simpa using hb)]
      exact ih (by simpa using h)

theorem objGet_map_set_ne (o : Record) (k k' : Str) (v : Value) (hne : k' ≠ k) :
    objGet (o.map (fun p => if p.1 == k then (k, v) else p)) k' = objGet o k' := by
  induction o with
  | nil => rfl
  | cons hd tl ih =>
    cases hb : hd.1 == k with
    | true =>
      have hd1 : hd.1 = k := by simpa using hb
      have e1 : (if (hd.1 == k) = true then (k, v) else hd) = (k, v) := if_pos hb
      have h2 : ((k, v).1 == k') = false := by
        simp only [beq_eq_false_iff_ne, ne_eq]
        exact fun hc => hne hc.symm
      have h3 : (hd.1 == k') = false := by
        rw [hd1]
        simp only [beq_eq_false_iff_ne, ne_eq]
        exact fun hc => hne hc.symm
      simp only [List.map_cons, e1]
      rw [objGet_cons, objGet_cons, h2, h3]
      simp only [Bool.false_eq_true, if_false]
      exact ih
    | false =>
      simp only [List.map_cons, hb]
      rw [if_neg (by simp), objGet_cons, objGet_cons]
      by_cases hk' : (hd.1 == k') = true
      · rw [if_pos hk', if_pos hk']
      · rw [if_neg hk', if_neg hk']
        exact ih

theorem objGet_append_single (o : Record) (k : Str) (v : Value)
    (h : hasKey o k = false) :
    objGet (o ++ [(k, v)]) k = some v := by
  induction o with
  | nil =>
    rw [List.nil_append, objGet_cons, if_pos (by simp)]
  | cons hd tl ih =>
    rw [hasKey_cons] at h
    cases hb : hd.1 == k with
    | true => rw [hb] at h; simp at h
    | false =>
      rw [hb] at h
      rw [List.cons_append, objGet_cons, if_neg (by simpa using hb)]
      exact ih (by simpa using h)

theorem objGet_append_single_ne (o : Record) (k k' : Str) (v : Value)
    (hne : k' ≠ k) :
    objGet (o ++ [(k, v)]) k' = objGet o k' := by
  induction o with
  | nil =>
    have h2 : ((k, v).1 == k') = false := by
      simp only [beq_eq_false_iff_ne, ne_eq]
      exact fun hc => hne hc.symm
    rw [List.nil_append, objGet_cons, h2]
    simp only [Bool.false_eq_true, if_false]
  | cons hd tl ih =>
    rw [List.cons_append, objGet_cons, objGet_cons]
    by_cases hk' : (hd.1 == k') = true
    · rw [if_pos hk', if_pos hk']
    · rw [if_neg hk', if_neg hk']
      exact ih

theorem objGet_objInsert_self (o : Record) (k : Str) (v : Value) :
    objGet (objInsert o k v) k = some v := by
  unfold objInsert
  by_cases h : hasKey o k = true
  · rw [if_pos h]
    exact objGet_map_set o k v h
  · rw [if_neg h]
    exact objGet_append_single o k v (by simpa using h)

theorem objGet_objInsert_ne (o : Record) (k k' : Str) (v : Value)
    (hne : k' ≠ k) :
    objGet (objInsert o k v) k' = objGet o k' := by
  unfold objInsert
  by_cases h : hasKey o k = true
  · rw [if_pos h]
    exact objGet_map_set_ne o k k' v hne
  · rw [if_neg h]
    exact objGet_append_single_ne o k k' v hne

theorem attachMeta_cons (kv : Str × Str) (rest : List (Str × Str)) (obj : Record) :
    attachMeta (kv :: rest) obj = attachMeta rest (objInsert obj kv.1 (.vstr kv.2)) := by
  simp [attachMeta]

theorem objGet_attachMeta_not_mem (meta : List (Str × Str)) (obj : Record) (k : Str)
    (h : ∀ kv ∈ meta, kv.1 ≠ k) :
    objGet (attachMeta meta obj) k = objGet obj k := by
  induction meta generalizing obj with
  | nil => rfl
  | cons kv rest ih =>
    rw [attachMeta_cons, ih _ (fun x hx => h x (List.mem_cons_of_mem _ hx)),
      objGet_objInsert_ne _ _ _ _ (h kv (List.mem_cons_self _ _)).symm]

theorem objGet_attachMeta_mem (meta : List (Str × Str)) (obj : Record) (k : Str) (v : Str)
    (hnd : (meta.map Prod.fst).Nodup) (hmem : (k, v) ∈ meta) :
    objGet (attachMeta meta obj) k = some (.vstr v) := by
  induction meta generalizing obj with
  | nil => cases hmem
  | cons kv rest ih =>
    rw [attachMeta_cons]
    rw [List.map_cons, List.nodup_cons] at hnd
    rcases List.mem_cons.mp hmem with heq | hmemr
    · have hk1 : kv.1 = k := by rw [← heq]
      have hrest : ∀ kv2 ∈ rest, kv2.1 ≠ k := by
        intro kv2 hkv2 hc
        exact hnd.1 (hk1 ▸ hc ▸ List.mem_map_of_mem Prod.fst hkv2)
      rw [objGet_attachMeta_not_mem _ _ _ hrest, ← heq]
      exact objGet_objInsert_self _ _ _
    · exact ih (objInsert obj kv.1 (.vstr kv.2)) hnd.2 hmemr

theorem buildResults_cons (fh : Option (List Str)) (opts : Opts) (r : List Str)
    (rest : List (List Str)) (acc : List Record) :
    buildResults fh opts (r :: rest) acc =
      if isJunk r then buildResults fh opts rest acc
      else buildResults fh opts rest (acc ++ [mkRecord fh opts acc.length r]) := rfl

theorem buildResults_length (fh : Option (List Str)) (opts : Opts)
    (rows : List (List Str)) : ∀ acc : List Record,
    (buildResults fh opts rows acc).length =
      acc.length + rows.countP (fun r => !isJunk r) := by
  induction rows with
  | nil => intro acc; simp [buildResults]
  | cons r rest ih =>
    intro acc
    rw [buildResults_cons]
    by_cases hj : isJunk r = true
    · rw [if_pos hj, ih, List.countP_cons]
      simp [hj]
    · rw [if_neg hj, ih, List.countP_cons]
      have : (!isJunk r) = true := by
        cases hb : isJunk r
        · rfl
        · exact absurd hb hj
      simp [this]
      omega

theorem buildResults_filter (fh : Option (List Str)) (opts : Opts)
    (rows : List (List Str)) : ∀ acc : List Record,
    buildResults fh opts rows acc =
      buildResults fh opts (rows.filter (fun r => !isJunk r)) acc := by
  induction rows with
  | nil => intro; rfl
  | cons r rest ih =>
    intro acc
    rw [buildResults_cons]
    by_cases hj : isJunk r = true
    · rw [if_pos hj, List.filter_cons_of_neg (by simp [hj]), ih]
    · rw [if_neg hj, List.filter_cons_of_pos (by simp [Bool.eq_false_iff.mpr hj]),
        buildResults_cons, if_neg hj, ih]

theorem mem_buildResults (fh : Option (List Str)) (opts : Opts)
    (rows : List (List Str)) : ∀ (acc : List Record) (r : Record),
    r ∈ buildResults fh opts rows acc →
      r ∈ acc ∨ ∃ count row, r = mkRecord fh opts count row := by
  induction rows with
  | nil => intro acc r h; exact Or.inl h
  | cons row rest ih =>
    intro acc r h
    rw [buildResults_cons] at h
    by_cases hj : isJunk row = true
    · rw [if_pos hj] at h
      exact ih _ _ h
    · rw [if_neg hj] at h
      rcases ih _ _ h with hin | hex
      · rcases List.mem_append.mp hin with h1 | h2
        · exact Or.inl h1
        · exact Or.inr ⟨acc.length, row, List.mem_singleton.mp h2⟩
      · exact Or.inr hex

theorem sortStep_perm (rs : List Record) : (sortStep rs).Perm rs := by
  unfold sortStep
  split
  · exact List.mergeSort_perm rs sortLe
  · exact List.Perm.refl rs

theorem parseInput_eq_sortStep (rawText : Str) (opts : Opts) :
    parseInput rawText opts = sortStep (preSort rawText opts) := rfl

/-- Claim C10: the metadata merge overwrites every same-named key, not only
row-data keys: for every input processed with identifier synthesis enabled
and a metadata mapping containing the key `id` with value `v`, every
returned record's `id` field equals `v`, replacing the synthesized
identifier, because metadata entries are written after identifier
synthesis. -/
theorem claim10_meta_overwrites_id (rawText : Str) (opts : Opts) (v : Str)
    (_haddid : opts.addId = true)
    (hnd : (opts.meta.map Prod.fst).Nodup)
    (hmem : (kId, v) ∈ opts.meta) :
    ∀ r ∈ parseInput rawText opts, objGet r kId = some (.vstr v) := by
  intro r hr
  rw [parseInput_eq_sortStep] at hr
  have hr2 : r ∈ preSort rawText opts := (sortStep_perm _).mem_iff.mp hr
  have hr3 := mem_buildResults _ opts _ [] r hr2
  rcases hr3 with hin | ⟨count, row, hrow⟩
  · cases hin
  · subst hrow
    unfold mkRecord
    exact objGet_attachMeta_mem _ _ _ _ hnd hmem

/-- Witness for claim C10 at a concrete comma-separated input. -/
theorem claim10_witness :
    objGet ((parseInput c10text c10opts).headD []) kId = some (.vstr (("xy").toList)) :=
  claim10_meta_overwrites_id c10text c10opts (("xy").toList) rfl (by decide) (by decide)
    ((parseInput c10text c10opts).headD []) (by decide)

theorem rows_length_le (fmt : Shape) (lines : List Str) :
    (extractTable fmt lines).2.length ≤ lines.length := by
  cases fmt
  case md =>
    simp only [extractTable, parseMarkdownTable]
    split
    · simp
    · simp only [List.length_map, List.length_drop]
      exact le_trans (Nat.sub_le _ _) (List.length_filter_le _ _)
  case tsv =>
    simp only [extractTable, delimExtract, parseDelimited]
    rcases hidx : guessHeaderIdx lines with _ | idx <;> simp [hidx]
  case csv =>
    simp only [extractTable, delimExtract, parseDelimited]
    rcases hidx : guessHeaderIdx lines with _ | idx <;> simp [hidx]
  case spaced =>
    simp only [extractTable]
    rcases hidx : guessHeaderIdx lines with _ | idx <;> simp [hidx]

/-- Claim C7: the junk filter discards a row exactly when its cells joined
with a single space and lowercased contain three consecutive dashes, or the
row is a single cell shorter than two UTF-16 units; and discarded rows are
dropped before identifier synthesis, so the row loop on any row sequence
equals the row loop on its junk-filtered subsequence (junk rows never
consume an index position). -/
theorem claim7_junk_filter :
    (∀ r : List Str,
      isJunk r = true ↔
        (hasSub (("---").toList) (lowerStr (List.intercalate [' '] r)) = true ∨
          ∃ x, r = [x] ∧ jsLen x < 2)) ∧
    (∀ (fh : Option (List Str)) (opts : Opts) (rows : List (List Str))
        (acc : List Record),
      buildResults fh opts rows acc =
        buildResults fh opts (rows.filter (fun r => !isJunk r)) acc) := by
  constructor
  · intro r
    match r with
    | [] => simp [isJunk]
    | [x] => simp [isJunk]
    | x :: y :: rest => simp [isJunk]
  · exact fun fh opts rows acc => buildResults_filter fh opts rows acc

/-- Claim C9: the conversion is a total function with every fallback
defined: the detector always yields one of the four shapes, the coercions
always yield a number or null, and the number of records returned is
bounded by the number of processed input lines (the computation is bounded
by input size; termination is by construction of the definitions). -/
theorem claim9_total_no_errors :
    (∀ text : Str, detectFormat text = .md ∨ detectFormat text = .tsv ∨
      detectFormat text = .csv ∨ detectFormat text = .spaced) ∧
    (∀ v : Value, coerceRank v = .vnull ∨ ∃ n : Nat, coerceRank v = .vnum n) ∧
    (∀ v : Value, coerceNumber v = .vnull ∨ ∃ q : ℚ, coerceNumber v = .vnum q) ∧
    (∀ (text : Str) (opts : Opts),
      (parseInput text opts).length ≤ (linesOf text).length) := by
  refine ⟨fun text => ?_, fun v => ?_, fun v => ?_, fun text opts => ?_⟩
  · cases detectFormat text <;> simp
  · cases v with
    | vnull => exact Or.inl rfl
    | vstr s =>
      cases hscan : rankScan (jsTrim (valToStr (.vstr s))) with
      | none => exact Or.inl (by simp [coerceRank, hscan])
      | some n => exact Or.inr ⟨n, by simp [coerceRank, hscan]⟩
    | vnum q =>
      cases hscan : rankScan (jsTrim (valToStr (.vnum q))) with
      | none => exact Or.inl (by simp [coerceRank, hscan])
      | some n => exact Or.inr ⟨n, by simp [coerceRank, hscan]⟩
  · cases v with
    | vnull => exact Or.inl rfl
    | vstr s =>
      cases hscan : numScan (jsTrim (valToStr (.vstr s))) with
      | none => exact Or.inl (by simp [coerceNumber, hscan])
      | some q2 => exact Or.inr ⟨q2, by simp [coerceNumber, hscan]⟩
    | vnum q =>
      cases hscan : numScan (jsTrim (valToStr (.vnum q))) with
      | none => exact Or.inl (by simp [coerceNumber, hscan])
      | some q2 => exact Or.inr ⟨q2, by simp [coerceNumber, hscan]⟩
  · rw [parseInput_eq_sortStep, (sortStep_perm _).length_eq]
    unfold preSort
    rw [buildResults_length]
    simp only [List.length_nil, Nat.zero_add]
    calc ((extractTable (detectFormat text) (linesOf text)).2.countP fun r => !isJunk r)
        ≤ (extractTable (detectFormat text) (linesOf text)).2.length :=
      List.countP_le_length _
    _ ≤ (linesOf text).length := rows_length_le _ _

theorem mem_removeAll (p : Char → Bool) (l : Str) (c : Char)
    (h : c ∈ removeAll p l) : p c = false := by
  have := (List.mem_filter.mp h).2
  cases hb : p c
  · rfl
  · rw [hb] at this; simp at this

theorem normalizeKey_chars (k : Str) : ∀ c ∈ normalizeKey k, keyChar c = true := by
  intro c hc
  have := mem_removeAll _ _ _ hc
  cases hb : keyChar c
  · rw [hb] at this; simp at this
  · rfl

theorem keyChar_not_ws (c : Char) (h : keyChar c = true) : jsWS c = false := by
  cases hw : jsWS c
  · rfl
  · exfalso
    simp only [keyChar, isLowerAlnum, Bool.or_eq_true, Bool.and_eq_true,
      decide_eq_true_eq] at h
    simp only [jsWS, Bool.or_eq_true, Bool.and_eq_true, decide_eq_true_eq] at hw
    omega

theorem keyChar_lower_fix (c : Char) (h : keyChar c = true) : asciiLower c = c := by
  unfold asciiLower
  rw [if_neg]
  simp only [keyChar, isLowerAlnum, Bool.or_eq_true, Bool.and_eq_true,
    decide_eq_true_eq] at h
  simp only [Bool.and_eq_true, decide_eq_true_eq, not_and]
  omega

theorem lowerStr_fix (l : Str) (h : ∀ c ∈ l, keyChar c = true) : lowerStr l = l := by
  unfold lowerStr
  induction l with
  | nil => rfl
  | cons c rest ih =>
    rw [List.map_cons, keyChar_lower_fix c (h c (List.mem_cons_self _ _)),
      ih (fun x hx => h x (List.mem_cons_of_mem _ hx))]

theorem dropWhile_of_forall (p : Char → Bool) (l : Str)
    (h : ∀ c ∈ l, p c = false) : l.dropWhile p = l := by
  cases l with
  | nil => rfl
  | cons c rest =>
    rw [List.dropWhile_cons, if_neg]
    rw [h c (List.mem_cons_self _ _)]
    simp

theorem dropTrailing_of_forall (p : Char → Bool) (l : Str)
    (h : ∀ c ∈ l, p c = false) : dropTrailing p l = l := by
  unfold dropTrailing
  rw [dropWhile_of_forall p _ (fun c hc => h c (List.mem_reverse.mp hc)),
    List.reverse_reverse]

theorem jsTrim_fix (l : Str) (h : ∀ c ∈ l, jsWS c = false) : jsTrim l = l := by
  unfold jsTrim
  rw [dropWhile_of_forall _ _ h, dropTrailing_of_forall _ _ h]

theorem collapseAux_fix (p : Char → Bool) (rep : Char) (l : Str)
    (h : ∀ c ∈ l, p c = false) : ∀ flag, collapseAux p rep flag l = l := by
  induction l with
  | nil => intro flag; rfl
  | cons c rest ih =>
    intro flag
    have hc : p c = false := h c (List.mem_cons_self _ _)
    simp only [collapseAux, hc, Bool.false_eq_true, if_false]
    rw [ih (fun x hx => h x (List.mem_cons_of_mem _ hx))]

theorem removeAll_fix (p : Char → Bool) (l : Str)
    (h : ∀ c ∈ l, p c = false) : removeAll p l = l := by
  unfold removeAll
  rw [List.filter_eq_self]
  intro c hc
  rw [h c hc]
  simp

/-- Claim C8: key normalization is idempotent: normalizing an
already-normalized key returns it unchanged. -/
theorem claim8_normalizeKey_idem (k : Str) :
    normalizeKey (normalizeKey k) = normalizeKey k := by
  have hch : ∀ c ∈ normalizeKey k, keyChar c = true := normalizeKey_chars k
  have hws : ∀ c ∈ normalizeKey k, jsWS c = false :=
    fun c hc => keyChar_not_ws c (hch c hc)
  show removeAll (fun c => !keyChar c)
      (collapseRuns jsWS '_' (jsTrim (lowerStr (normalizeKey k)))) = normalizeKey k
  rw [lowerStr_fix _ hch, jsTrim_fix _ hws]
  unfold collapseRuns
  rw [collapseAux_fix jsWS '_' _ hws false]
  exact removeAll_fix _ _ (fun c hc => by rw [hch c hc]; rfl)

theorem objGet_isSome_of_hasKey (o : Record) (k : Str) (h : hasKey o k = true) :
    ∃ v, objGet o k = some v := by
  induction o with
  | nil => simp only [hasKey, List.any_nil] at h; exact Bool.noConfusion h
  | cons hd tl ih =>
    rw [hasKey_cons] at h
    rw [objGet_cons]
    cases hb : hd.1 == k with
    | true => exact ⟨hd.2, by simp⟩
    | false =>
      rw [hb] at h
      rw [if_neg (by simp)]
      exact ih (by simpa using h)

theorem rankScan_eq_spec (s : Str) : rankScan s = firstDigitsSpec s := by
  induction s with
  | nil => rfl
  | cons c rest ih =>
    by_cases hd : c.isDigit = true
    · simp [rankScan, firstDigitsSpec, hd, List.dropWhile_cons]
    · by_cases hh : (c = '#' && rest.head?.elim false Char.isDigit) = true
      · have hparts : c = '#' ∧ rest.head?.elim false Char.isDigit = true := by
          simpa using hh
        have hc : c = '#' := hparts.1
        have hrest : rest.head?.elim false Char.isDigit = true := hparts.2
        cases rest with
        | nil => simp at hrest
        | cons d r2 =>
          have hd2 : d.isDigit = true := by simpa using hrest
          simp [rankScan, firstDigitsSpec, hd, hh, hc, hd2, List.dropWhile_cons]
      · simp only [rankScan, hd, Bool.false_eq_true, if_false, hh]
        rw [ih]
        simp [firstDigitsSpec, List.dropWhile_cons, hd]

theorem numScan_none_iff (s : Str) :
    numScan s = none ↔ ∀ c ∈ s, c.isDigit = false := by
  induction s with
  | nil => simp [numScan]
  | cons c rest ih =>
    by_cases hd : c.isDigit = true
    · simp [numScan, hd]
    · by_cases hm : (c = '-' && rest.head?.elim false Char.isDigit) = true
      · have hparts : c = '-' ∧ rest.head?.elim false Char.isDigit = true := by
          simpa using hm
        cases rest with
        | nil => simp at hparts
        | cons d r2 =>
          have hd2 : d.isDigit = true := by simpa using hparts.2
          constructor
          · intro hcontra
            simp [numScan, hd, hparts.1, hd2] at hcontra
          · intro hall
            exact absurd (hall d (by simp)) (by simp [hd2])
      · simp only [numScan, hd, Bool.false_eq_true, if_false, hm]
        rw [ih]
        constructor
        · intro hall c2 hc2
          rcases List.mem_cons.mp hc2 with rfl | hmem
          · simpa using hd
          · exact hall c2 hmem
        · intro hall c2 hc2
          exact hall c2 (List.mem_cons_of_mem _ hc2)

theorem coerceStep_rank (obj : Record) (h : hasKey obj kRank = true) :
    objGet (coerceStep obj) kRank = (objGet obj kRank).map coerceRank := by
  obtain ⟨v, hv⟩ := objGet_isSome_of_hasKey obj kRank h
  unfold coerceStep
  rw [hv]
  simp only
  have hself : objGet (objInsert obj kRank (coerceRank v)) kRank = some (coerceRank v) :=
    objGet_objInsert_self _ _ _
  cases hrat : objGet (objInsert obj kRank (coerceRank v)) kRating with
  | none => rw [hself]; rfl
  | some w =>
    rw [objGet_objInsert_ne _ _ _ _ (by decide), hself]
    rfl

theorem coerceStep_rating (obj : Record) (h : hasKey obj kRating = true) :
    objGet (coerceStep obj) kRating = (objGet obj kRating).map coerceNumber := by
  unfold coerceStep
  cases hrk : objGet obj kRank with
  | none =>
    simp only
    cases hrat : objGet obj kRating with
    | none =>
      obtain ⟨w, hw⟩ := objGet_isSome_of_hasKey obj kRating h
      rw [hw] at hrat
      exact Option.noConfusion hrat
    | some w =>
      rw [objGet_objInsert_self]
      rfl
  | some v =>
    simp only
    have hpres : objGet (objInsert obj kRank (coerceRank v)) kRating = objGet obj kRating :=
      objGet_objInsert_ne _ _ _ _ (by decide)
    cases hrat : objGet obj kRating with
    | none =>
      obtain ⟨w, hw⟩ := objGet_isSome_of_hasKey obj kRating h
      rw [hw] at hrat
      exact Option.noConfusion hrat
    | some w =>
      rw [hpres, hrat, objGet_objInsert_self]
      rfl

/-- Claim C4: a present `rank` value is replaced by the first run of digits
found (an optional literal hash merely precedes it), as a number, or null
when the string holds no digit; a present `rating` value is replaced by the
first numeric token found, or null exactly when the string holds no digit;
with the example values of the specification. -/
theorem claim4_coercions :
    (coerceRank (.vstr (("#12").toList)) = .vnum 12) ∧
    (coerceRank (.vstr (("12").toList)) = .vnum 12) ∧
    (coerceRank (.vstr (("rank: none").toList)) = .vnull) ∧
    (coerceNumber (.vstr (("8.5").toList)) = .vnum (17 / 2)) ∧
    (coerceNumber (.vstr (("-3").toList)) = .vnum (-3)) ∧
    (coerceNumber (.vstr (("n/a").toList)) = .vnull) ∧
    (∀ s : Str, rankScan s = firstDigitsSpec s) ∧
    (∀ s : Str, numScan s = none ↔ ∀ c ∈ s, c.isDigit = false) ∧
    (∀ obj : Record, hasKey obj kRank = true →
      objGet (coerceStep obj) kRank = (objGet obj kRank).map coerceRank) ∧
    (∀ obj : Record, hasKey obj kRating = true →
      objGet (coerceStep obj) kRating = (objGet obj kRating).map coerceNumber) :=
  ⟨by decide, by decide, by decide,
    by
      have h : coerceNumber (.vstr (("8.5").toList)) = .vnum (mkRat 17 2) := by decide
      rw [h, show (mkRat 17 2 : ℚ) = 17 / 2 by rw [Rat.mkRat_eq_div]; norm_num],
    by decide, by decide,
    rankScan_eq_spec, numScan_none_iff, coerceStep_rank, coerceStep_rating⟩

/-- Witness for claim C4: the rank-replacement component applied to a
concrete one-field record. -/
theorem claim4_witness :
    objGet (coerceStep [(kRank, Value.vstr (("#7").toList))]) kRank =
      (objGet [(kRank, Value.vstr (("#7").toList))] kRank).map coerceRank :=
  claim4_coercions.2.2.2.2.2.2.2.2.1 [(kRank, Value.vstr (("#7").toList))] (by decide)

theorem firstTruthy_spec (obj : Record) : ∀ ks : List Str,
    (∀ k ∈ ks, strShapeOpt (objGet obj k) = true) →
    (match firstTruthy obj ks with
     | some v => valToStr v
     | none => ("row").toList) =
      (match (ks.findSome? fun k =>
          match objGet obj k with
          | some (.vstr s) => if s.isEmpty then none else some s
          | _ => none) with
       | some s => s
       | none => ("row").toList) := by
  intro ks
  induction ks with
  | nil => intro _; rfl
  | cons k rest ih =>
    intro h
    have hrest : ∀ k2 ∈ rest, strShapeOpt (objGet obj k2) = true :=
      fun k2 hk2 => h k2 (List.mem_cons_of_mem _ hk2)
    have hk : strShapeOpt (objGet obj k) = true := h k (List.mem_cons_self _ _)
    rw [List.findSome?_cons]
    cases hget : objGet obj k with
    | none =>
      simp only [firstTruthy, hget]
      exact ih hrest
    | some v =>
      rw [hget] at hk
      cases v with
      | vnum q => simp [strShapeOpt] at hk
      | vnull => simp [strShapeOpt] at hk
      | vstr s =>
        by_cases hs : s.isEmpty = true
        · have hsnil : s = [] := by simpa using hs
          simp only [firstTruthy, hget, jsTruthy, hsnil]
          simpa using ih hrest
        · simp only [firstTruthy, hget, jsTruthy]
          have hb2 : (!s.isEmpty) = true := by simp [Bool.eq_false_iff.mpr hs]
          rw [if_pos hb2, if_neg hs]
          rfl

/-- Claim C6: with identifier synthesis enabled, the identifier base is the
first non-empty value among the record's `player`, `name`, `full_name`,
`col2`, `col1` fields, else the literal `row`, and the synthesized `id`
equals the slugified base-dash-rank string when `rank` is a number, or
base-dash-(count plus one) when `rank` is null or absent, `count` being the
number of records already produced.  The hypotheses restrict the record to
the value shapes the row loop produces (base fields hold strings, the rank
field is never a string). -/
theorem claim6_identifier (obj : Record) (count : Nat)
    (hbase : ∀ k ∈ baseKeys, strShapeOpt (objGet obj k) = true)
    (hrk : rankShapeOK obj = true) :
    objGet (addIdStep count obj) kId =
      some (.vstr (slugify (specBase obj ++ ('-' :: specRankSeq obj count)))) := by
  unfold addIdStep
  rw [objGet_objInsert_self]
  have hb : baseOf obj = specBase obj := by
    unfold baseOf specBase
    exact firstTruthy_spec obj [kPlayer, kName, kFullName, kCol2, kCol1] hbase
  have hr : rankOrSeq obj count = specRankSeq obj count := by
    unfold rankOrSeq specRankSeq rankShapeOK at *
    cases hget : objGet obj kRank with
    | none => rfl
    | some v =>
      cases v with
      | vstr s => rw [hget] at hrk; simp at hrk
      | vnum q => rfl
      | vnull => rfl
  rw [hb, hr]

/-- Witness for claim C6 at a concrete two-field record. -/
theorem claim6_witness :
    objGet (addIdStep 0 [(kPlayer, Value.vstr (("Al").toList)), (kRank, Value.vnum 3)]) kId =
      some (.vstr (slugify (specBase [(kPlayer, Value.vstr (("Al").toList)), (kRank, Value.vnum 3)] ++
        ('-' :: specRankSeq [(kPlayer, Value.vstr (("Al").toList)), (kRank, Value.vnum 3)] 0)))) :=
  claim6_identifier [(kPlayer, Value.vstr (("Al").toList)), (kRank, Value.vnum 3)] 0
    (by decide) (by decide)

/-- Counterexample to claim C5 as stated: this input contains a tab
character, so the claim's comma rule (no tab anywhere in the input) would
demand whitespace-aligned, yet the detector returns comma-separated: the
tab sits in a line that is blank after trimming, and only non-blank lines
are inspected. -/
theorem claim5_counterexample :
    detectFormat c5text = Shape.csv ∧ '\t' ∈ c5text ∧ detectFormat c5text ≠ Shape.spaced := by
  refine ⟨by decide, by decide, by decide⟩

/-- Claim C5 as amended: the detector is the stated priority chain with the
comma rule's tab check ranging over the non-blank lines (equivalently: it
is already settled by the failed tab-separated branch), not over the raw
input text. -/
theorem claim5_detect_equiv (text : Str) : detectFormat text = detectFormatSpec text := by
  unfold detectFormat detectFormatSpec
  by_cases hA : (detectLines text).any (fun l => l.contains '|' && trimStartsPipe l) = true
  · rw [if_pos hA, if_pos hA]
  · rw [if_neg hA, if_neg hA]
    by_cases hB : (detectLines text).any (fun l => l.contains '\t') = true
    · rw [if_pos hB, if_pos hB]
    · rw [if_neg hB, if_neg hB]
      have hnotab : ∀ l ∈ detectLines text, l.contains '\t' = false := by
        intro l hl
        cases hlt : l.contains '\t'
        · rfl
        · exact absurd (List.any_eq_true.mpr ⟨l, hl, hlt⟩) hB
      have hC : ((detectLines text).any fun l => l.contains ',' && !l.contains '\t') =
          ((detectLines text).any fun l => l.contains ',') := by
        cases h1 : ((detectLines text).any fun l => l.contains ',' && !l.contains '\t') with
        | true =>
          rcases List.any_eq_true.mp h1 with ⟨l, hl, hp⟩
          have hcomma : l.contains ',' = true := by
            have := hp
            simp only [Bool.and_eq_true] at this
            exact this.1
          exact (List.any_eq_true.mpr ⟨l, hl, hcomma⟩).symm
        | false =>
          cases h2 : ((detectLines text).any fun l => l.contains ',') with
          | false => rfl
          | true =>
            rcases List.any_eq_true.mp h2 with ⟨l, hl, hcomma⟩
            have hconj : (l.contains ',' && !l.contains '\t') = true := by
              rw [hcomma, hnotab l hl]
              rfl
            have : ((detectLines text).any fun l => l.contains ',' && !l.contains '\t') = true :=
              List.any_eq_true.mpr ⟨l, hl, hconj⟩
            rw [h1] at this
            exact Bool.noConfusion this
      rw [hC]

theorem collapseAux_flag (p : Char → Bool) (x : Str) :
    (collapseAux p '-' false x).dropWhile isDash =
      (collapseAux p '-' true x).dropWhile isDash := by
  cases x with
  | nil => rfl
  | cons c r =>
    by_cases hp : p c = true
    · simp only [collapseAux, hp, if_true, Bool.false_eq_true, if_false]
      rw [List.dropWhile_cons, if_pos (by decide)]
    · simp only [collapseAux, hp, Bool.false_eq_true, if_false]

theorem collapseAux_true_all (p : Char → Bool) :
    ∀ sfx : Str, (∀ c ∈ sfx, p c = true) → collapseAux p '-' true sfx = [] := by
  intro sfx
  induction sfx with
  | nil => intro _; rfl
  | cons c rest ih =>
    intro h
    simp only [collapseAux, h c (List.mem_cons_self _ _), if_true]
    exact ih (fun x hx => h x (List.mem_cons_of_mem _ hx))

theorem collapseAux_false_all (p : Char → Bool) (c : Char) (rest : Str)
    (h : ∀ x ∈ c :: rest, p x = true) :
    collapseAux p '-' false (c :: rest) = ['-'] := by
  simp only [collapseAux, h c (List.mem_cons_self _ _), if_true, Bool.false_eq_true, if_false]
  rw [collapseAux_true_all p rest (fun x hx => h x (List.mem_cons_of_mem _ hx))]

theorem collapseAux_true_append (p : Char → Bool) :
    ∀ pre : Str, (∀ c ∈ pre, p c = true) →
    ∀ x : Str, collapseAux p '-' true (pre ++ x) = collapseAux p '-' true x := by
  intro pre
  induction pre with
  | nil => intro _ x; rfl
  | cons c rest ih =>
    intro h x
    rw [List.cons_append]
    simp only [collapseAux, h c (List.mem_cons_self _ _), if_true]
    exact ih (fun y hy => h y (List.mem_cons_of_mem _ hy)) x

theorem collapseAux_append_pre (p : Char → Bool) (c : Char) (rest : Str)
    (h : ∀ x ∈ c :: rest, p x = true) (x : Str) :
    collapseAux p '-' false ((c :: rest) ++ x) = '-' :: collapseAux p '-' true x := by
  rw [List.cons_append]
  simp only [collapseAux, h c (List.mem_cons_self _ _), if_true, Bool.false_eq_true, if_false]
  rw [collapseAux_true_append p rest (fun y hy => h y (List.mem_cons_of_mem _ hy)) x]

theorem collapseAux_append_sfx (p : Char → Bool) (sfx : Str)
    (hs : ∀ c ∈ sfx, p c = true) :
    ∀ (x : Str) (flag : Bool),
      collapseAux p '-' flag (x ++ sfx) = collapseAux p '-' flag x ∨
      collapseAux p '-' flag (x ++ sfx) = collapseAux p '-' flag x ++ ['-'] := by
  intro x
  induction x with
  | nil =>
    intro flag
    cases flag with
    | true =>
      left
      rw [List.nil_append, collapseAux_true_all p sfx hs]
      rfl
    | false =>
      cases sfx with
      | nil => left; rfl
      | cons c rest =>
        right
        rw [List.nil_append, collapseAux_false_all p c rest hs]
        rfl
  | cons c r ih =>
    intro flag
    rw [List.cons_append]
    by_cases hp : p c = true
    · cases flag with
      | false =>
        simp only [collapseAux, hp, if_true, Bool.false_eq_true, if_false]
        rcases ih true with h1 | h1
        · left; rw [h1]
        · right; rw [h1]; rfl
      | true =>
        simp only [collapseAux, hp, if_true]
        exact ih true
    · simp only [collapseAux, hp, Bool.false_eq_true, if_false]
      rcases ih false with h1 | h1
      · left; rw [h1]
      · right; rw [h1]; rfl

theorem dropTrailing_append_dash (z : Str) :
    dropTrailing isDash (z ++ ['-']) = dropTrailing isDash z := by
  unfold dropTrailing
  rw [List.reverse_append]
  simp only [List.reverse_cons, List.reverse_nil, List.nil_append, List.singleton_append]
  rw [List.dropWhile_cons, if_pos (by decide)]

theorem slugTail_cons_dash (y : Str) : slugTail ('-' :: y) = slugTail y := by
  unfold slugTail
  rw [List.dropWhile_cons, if_pos (by decide)]

theorem slugTail_append_dash (y : Str) : slugTail (y ++ ['-']) = slugTail y := by
  unfold slugTail
  rw [List.dropWhile_append]
  by_cases he : (y.dropWhile isDash).isEmpty = true
  · rw [if_pos he]
    have : y.dropWhile isDash = [] := by simpa using he
    rw [this]
    rw [List.dropWhile_cons, if_pos (by decide)]
    rfl
  · rw [if_neg he]
    exact dropTrailing_append_dash _

theorem slugTail_flag (p : Char → Bool) (x : Str) :
    slugTail (collapseAux p '-' true x) = slugTail (collapseAux p '-' false x) := by
  unfold slugTail
  rw [collapseAux_flag]

theorem ws_not_quote (c : Char) (h : jsWS c = true) : isQuoteChar c = false := by
  cases hb : isQuoteChar c
  · rfl
  · exfalso
    simp only [jsWS, Bool.or_eq_true, Bool.and_eq_true, decide_eq_true_eq] at h
    simp only [isQuoteChar, Bool.or_eq_true, decide_eq_true_eq] at hb
    omega

theorem ws_nonAlnum (c : Char) (h : jsWS c = true) : nonAlnum c = true := by
  unfold nonAlnum
  cases hb : isLowerAlnum c
  · rfl
  · exfalso
    simp only [jsWS, Bool.or_eq_true, Bool.and_eq_true, decide_eq_true_eq] at h
    simp only [isLowerAlnum, Bool.or_eq_true, Bool.and_eq_true, decide_eq_true_eq] at hb
    omega

theorem slugTail_collapse_pre (p : Char → Bool) (tw x : Str)
    (h : ∀ c ∈ tw, p c = true) :
    slugTail (collapseAux p '-' false (tw ++ x)) = slugTail (collapseAux p '-' false x) := by
  cases tw with
  | nil => rfl
  | cons c rest =>
    rw [collapseAux_append_pre p c rest h x, slugTail_cons_dash, slugTail_flag]

theorem slugTail_collapse_sfx (p : Char → Bool) (x sfx : Str)
    (h : ∀ c ∈ sfx, p c = true) :
    slugTail (collapseAux p '-' false (x ++ sfx)) = slugTail (collapseAux p '-' false x) := by
  rcases collapseAux_append_sfx p sfx h x false with h1 | h1
  · rw [h1]
  · rw [h1, slugTail_append_dash]

theorem slugify_eq_spec (s : Str) : slugify s = slugifySpec s := by
  unfold slugify slugifySpec collapseRuns
  have hdec2 : (lowerStr s).dropWhile jsWS =
      jsTrim (lowerStr s) ++ (((lowerStr s).dropWhile jsWS).reverse.takeWhile jsWS).reverse := by
    conv_lhs => rw [← List.reverse_reverse ((lowerStr s).dropWhile jsWS)]
    conv_lhs => rw [← List.takeWhile_append_dropWhile jsWS ((lowerStr s).dropWhile jsWS).reverse]
    rw [List.reverse_append]
    rfl
  have hra : removeAll isQuoteChar (lowerStr s) =
      (lowerStr s).takeWhile jsWS ++
        (removeAll isQuoteChar (jsTrim (lowerStr s)) ++
          (((lowerStr s).dropWhile jsWS).reverse.takeWhile jsWS).reverse) := by
    conv_lhs => rw [← List.takeWhile_append_dropWhile jsWS (lowerStr s)]
    conv_lhs => rw [hdec2]
    unfold removeAll
    rw [List.filter_append, List.filter_append]
    congr 1
    · exact List.filter_eq_self.mpr (fun c hc => by
        rw [ws_not_quote c (List.mem_takeWhile_imp hc)]; rfl)
    · congr 1
      exact List.filter_eq_self.mpr (fun c hc => by
        rw [ws_not_quote c (List.mem_takeWhile_imp (List.mem_reverse.mp hc))]; rfl)
  rw [hra,
    slugTail_collapse_pre nonAlnum _ _
      (fun c hc => ws_nonAlnum c (List.mem_takeWhile_imp hc)),
    slugTail_collapse_sfx nonAlnum _ _
      (fun c hc => ws_nonAlnum c (List.mem_takeWhile_imp (List.mem_reverse.mp hc)))]

/-- Counterexample to claim C3 as stated: the curly apostrophe is not among
the stripped quote characters (the source regexp lists only the straight
quotes); being non-alphanumeric it collapses to a hyphen, so the curly
spelling of the name slugifies to o-brien, not obrien as the claim's
curly-quote-stripping description would require. -/
theorem claim3_counterexample :
    slugify (("O’Brien").toList) = ("o-brien").toList ∧
    slugify (("O’Brien").toList) ≠ ("obrien").toList :=
  ⟨by decide, by decide⟩

/-- Claim C3 as amended: slugification lowercases the input, strips the
straight quote characters only (a curly quote is treated like any other
non-alphanumeric character and collapses to a hyphen), collapses every run
of non-alphanumeric characters to a single hyphen, and trims leading and
trailing hyphens; the two spec examples hold with the straight quote. -/
theorem claim3_slugify :
    (∀ s : Str, slugify s = slugifySpec s) ∧
    slugify (("O\x27Brien").toList) = ("obrien").toList ∧
    slugify (("  New   York!!").toList) = ("new-york").toList ∧
    slugify (("O’Brien").toList) = ("o-brien").toList :=
  ⟨slugify_eq_spec, by decide, by decide, by decide⟩

theorem parseMarkdownTable_all_pipes (h s2 : Str) (ds : List Str)
    (hp : ∀ l ∈ h :: s2 :: ds, trimStartsPipe l = true) :
    parseMarkdownTable (h :: s2 :: ds) = (some (splitPipe h), ds.map splitPipe) := by
  unfold parseMarkdownTable
  have hTL : (h :: s2 :: ds).filter trimStartsPipe = h :: s2 :: ds :=
    List.filter_eq_self.mpr hp
  simp only [hTL]
  have hlen : ¬((h :: s2 :: ds).length < 2) := by
    simp only [List.length_cons]
    omega
  rw [if_neg hlen]
  rfl

/-- Claim C2 as amended: for an input detected as a markdown table whose
processed lines are a header line, a separator line and data lines, all
pipe-prefixed, the conversion processes exactly the data lines — the second
pipe-prefixed line (the separator) is skipped unconditionally and never
appears as a record — and the number of records equals the number of data
rows that pass the junk filter.  (As stated, with exactly N records for N
data rows, the claim fails: a data row can itself be junk-filtered; see the
counterexample.) -/
theorem claim2_markdown_rows (text : Str) (opts : Opts) (hline sep : Str)
    (datas : List Str)
    (hlines : linesOf text = hline :: sep :: datas)
    (hfmt : detectFormat text = .md)
    (hpipe : ∀ l ∈ linesOf text, trimStartsPipe l = true) :
    parseInput text opts =
      sortStep (buildResults (resolveHeader opts.columns (some (splitPipe hline))) opts
        (datas.map splitPipe) []) ∧
    (parseInput text opts).length =
      (datas.map splitPipe).countP (fun r => !isJunk r) := by
  have hext : extractTable (detectFormat text) (linesOf text) =
      (some (splitPipe hline), datas.map splitPipe) := by
    rw [hfmt]
    show parseMarkdownTable (linesOf text) = _
    rw [hlines]
    exact parseMarkdownTable_all_pipes hline sep datas (hlines ▸ hpipe)
  constructor
  · rw [parseInput_eq_sortStep]
    unfold preSort
    rw [hext]
  · rw [parseInput_eq_sortStep, (sortStep_perm _).length_eq]
    unfold preSort
    rw [hext, buildResults_length]
    simp

/-- Counterexample to claim C2 as stated: a markdown table of header,
separator and one data row yields zero records, not one: the data row's
only cell is the single character 1, so the junk filter drops it. -/
theorem claim2_counterexample :
    linesOf c2text =
      [("| Rank | Player |").toList, ("| --- | --- |").toList, ("| 1 |").toList] ∧
    detectFormat c2text = .md ∧
    (parseInput c2text defaultOpts).length = 0 :=
  ⟨by decide, by decide, by decide⟩

/-- Witness for claim C2 at a two-data-row markdown table whose rows both
survive the junk filter. -/
theorem claim2_witness :
    (parseInput c2wtext defaultOpts).length =
      (([("| Ann Lee | Rye |").toList, ("| Bo Kim | Derby |").toList]).map splitPipe).countP
        (fun r => !isJunk r) :=
  (claim2_markdown_rows c2wtext defaultOpts (("| Name | City |").toList)
    (("| --- | --- |").toList)
    [("| Ann Lee | Rye |").toList, ("| Bo Kim | Derby |").toList]
    (by decide) (by decide) (by decide)).2

theorem rankKey_of_shape (r : Record) (h : rankShapeOK r = true) :
    rankKey r = some (keyOf r) := by
  unfold rankShapeOK at h
  unfold rankKey keyOf
  cases hget : objGet r kRank with
  | none => rfl
  | some v =>
    rw [hget] at h
    cases v with
    | vstr s => simp at h
    | vnum q => rfl
    | vnull => rfl

theorem keyOf_null (r : Record) (hn : isNullRank r = true) : keyOf r = 999999 := by
  unfold isNullRank at hn
  unfold keyOf
  cases hget : objGet r kRank with
  | none => rfl
  | some v =>
    rw [hget] at hn
    cases v with
    | vnum q => simp at hn
    | vstr s => rfl
    | vnull => rfl

theorem isNumRank_exists (r : Record) (h : isNumRank r = true) :
    ∃ q : ℚ, objGet r kRank = some (.vnum q) := by
  unfold isNumRank at h
  cases hget : objGet r kRank with
  | none => rw [hget] at h; simp at h
  | some v =>
    rw [hget] at h
    cases v with
    | vnum q => exact ⟨q, rfl⟩
    | vstr s => simp at h
    | vnull => simp at h

/-- Claim C1 as amended: the sort runs exactly when the first produced
record has a non-null rank; it then stably sorts the records ascending by
the key — the rank when it is a number, the sentinel 999999 when null or
absent.  Hence every null-or-absent-rank record is ordered after all
records with rank below 999999 (third conjunct), a record with rank above
999999 is ordered after the rank-less records (fourth conjunct), and a
rank of exactly 999999 ties with the rank-less records, the stability of
the sort (second conjunct: every key-ascending pair of the input keeps its
order) deciding their relative position — not "null-rank records after all
ranked records" as the claim states, see the counterexample.  With a null
or absent first rank the sequence is returned unchanged.  The only
hypothesis restricts stored ranks to the number-or-null shapes the row
loop produces. -/
theorem claim1_sorting (rs : List Record)
    (hshape : ∀ r ∈ rs, rankShapeOK r = true) :
    ((sortStep rs).Perm rs) ∧
    (firstRankPresent rs = true →
      ((sortStep rs).Pairwise fun a b => keyOf a ≤ keyOf b) ∧
      (∀ a b : Record, keyOf a ≤ keyOf b → [a, b].Sublist rs →
        [a, b].Sublist (sortStep rs)) ∧
      ((sortStep rs).Pairwise fun a b =>
        ¬(isNullRank a = true ∧ isNumRank b = true ∧ keyOf b < 999999)) ∧
      ((sortStep rs).Pairwise fun a b =>
        ¬(isNumRank a = true ∧ 999999 < keyOf a ∧ isNullRank b = true))) ∧
    (firstRankPresent rs = false → sortStep rs = rs) := by
  refine ⟨sortStep_perm rs, ?_, ?_⟩
  · intro hfirst
    have hsort : sortStep rs = rs.mergeSort sortLe := by
      unfold sortStep
      rw [if_pos hfirst]
    have hcomp : ∀ a ∈ rs, ∀ b ∈ rs,
        sortLe a b = decide (keyOf a ≤ keyOf b) := by
      intro a ha b hb
      unfold sortLe
      rw [rankKey_of_shape a (hshape a ha), rankKey_of_shape b (hshape b hb)]
    have heqK : rs.mergeSort sortLe =
        rs.mergeSort (fun a b => decide (keyOf a ≤ keyOf b)) := by
      have h0 := @List.map_mergeSort Record Record sortLe
        (fun a b => decide (keyOf a ≤ keyOf b)) id rs hcomp
      simpa using h0
    have htransK : ∀ a b c : Record, decide (keyOf a ≤ keyOf b) = true →
        decide (keyOf b ≤ keyOf c) = true → decide (keyOf a ≤ keyOf c) = true := by
      intro a b c h1 h2
      simp only [decide_eq_true_eq] at *
      exact le_trans h1 h2
    have htotalK : ∀ a b : Record,
        (decide (keyOf a ≤ keyOf b) || decide (keyOf b ≤ keyOf a)) = true := by
      intro a b
      rcases le_total (keyOf a) (keyOf b) with h | h <;> simp [h]
    have hsorted := List.sorted_mergeSort htransK htotalK rs
    have hpw : (sortStep rs).Pairwise fun a b => keyOf a ≤ keyOf b := by
      rw [hsort, heqK]
      exact hsorted.imp (fun h => by simpa using h)
    refine ⟨hpw, ?_, ?_, ?_⟩
    · intro a b hab hsub
      rw [hsort, heqK]
      refine List.sublist_mergeSort htransK htotalK ?_ hsub
      simp only [List.pairwise_cons, List.mem_singleton, List.not_mem_nil,
        false_implies, implies_true, and_true]
      refine ⟨fun b2 hb2 => ?_, trivial, List.Pairwise.nil⟩
      subst hb2
      simpa using hab
    · refine hpw.imp ?_
      intro a b hle hcontra
      obtain ⟨hnull, _, hlt⟩ := hcontra
      rw [keyOf_null a hnull] at hle
      exact absurd (lt_of_le_of_lt hle hlt) (lt_irrefl _)
    · refine hpw.imp ?_
      intro a b hle hcontra
      obtain ⟨_, hgt, hnull⟩ := hcontra
      rw [keyOf_null b hnull] at hle
      exact absurd (lt_of_lt_of_le hgt hle) (lt_irrefl _)
  · intro hfirst
    unfold sortStep
    rw [if_neg (by simp [hfirst])]

/-- Witness for claim C1 at a concrete two-record sequence with ranks 3
and 1. -/
theorem claim1_witness :
    ((sortStep c1rs).Perm c1rs) ∧
    ((sortStep c1rs).Pairwise fun a b => keyOf a ≤ keyOf b) :=
  ⟨(claim1_sorting c1rs (by decide)).1,
   ((claim1_sorting c1rs (by decide)).2.1 (by decide)).1⟩

unseal List.merge List.mergeSort in
/-- Counterexample to claim C1 as stated: at this input the first produced
record's rank is 1000000 (non-null), yet the sorted output places the
rank-less record first: null ranks become the sentinel 999999, which is
smaller than 1000000, so a ranked record is ordered after a rank-less
one. -/
theorem claim1_counterexample :
    firstRankPresent (preSort c1text defaultOpts) = true ∧
    objGet ((parseInput c1text defaultOpts).getD 0 []) kRank = some Value.vnull ∧
    objGet ((parseInput c1text defaultOpts).getD 1 []) kRank = some (Value.vnum 1000000) :=
  ⟨by decide, by decide, by decide⟩
